import Mathlib

/-!
Shallow embedding of the numerical core of the Python4Finance notebook
(`Intro_Examples.ipynb`): the Black-Scholes-Merton call pricer
`bsm_call_value`, the `bsm_vega` function, the Newton-Raphson implied
volatility solver `bsm_call_imp_vol`, and the three Monte Carlo valuation
scripts (`mcs_pure_python`, `mcs_vector_numpy`, `mcs_full_vector_numpy`).

Real numbers stand for Python floats; `scipy.stats.norm.cdf`/`pdf` are
embedded as the mathematical standard normal cumulative distribution
function and density.  Python exceptions (math domain error on `log` and
`sqrt`, `ZeroDivisionError` on float division) are embedded with `Option`:
`none` means the call raises, `some v` means it returns the value `v`.
-/

namespace Python4Finance

noncomputable section

open MeasureTheory ProbabilityTheory

/-- Standard normal probability density, the embedding of
`scipy.stats.norm.pdf(x, 0.0, 1.0)`. -/
def normPdf (x : ℝ) : ℝ := gaussianPDFReal 0 1 x

/-- Standard normal cumulative distribution function, the embedding of
`scipy.stats.norm.cdf(x, 0.0, 1.0)`. -/
def normCdf (x : ℝ) : ℝ := ∫ t in Set.Iic x, normPdf t

/-- The quantity `d1` computed by `bsm_call_value` and `bsm_vega`:
`(log(S0 / K) + (r + 0.5 * sigma ** 2) * T) / (sigma * sqrt(T))`. -/
def d1f (S0 K T r sigma : ℝ) : ℝ :=
  (Real.log (S0 / K) + (r + 0.5 * sigma ^ 2) * T) / (sigma * Real.sqrt T)

/-- The quantity `d2` computed by `bsm_call_value`:
`(log(S0 / K) + (r - 0.5 * sigma ** 2) * T) / (sigma * sqrt(T))`. -/
def d2f (S0 K T r sigma : ℝ) : ℝ :=
  (Real.log (S0 / K) + (r - 0.5 * sigma ^ 2) * T) / (sigma * Real.sqrt T)

/-- The value `S0 * stats.norm.cdf(d1, 0.0, 1.0) - K * exp(-r * T) *
stats.norm.cdf(d2, 0.0, 1.0)` computed by `bsm_call_value` when no exception
occurs. -/
def bsm_call_price (S0 K T r sigma : ℝ) : ℝ :=
  S0 * normCdf (d1f S0 K T r sigma)
    - K * Real.exp (-r * T) * normCdf (d2f S0 K T r sigma)

/-- The value `S0 * stats.norm.cdf(d1, 0.0, 1.0) * sqrt(T)` computed by
`bsm_vega` when no exception occurs. -/
def bsm_vega_val (S0 K T r sigma : ℝ) : ℝ :=
  S0 * normCdf (d1f S0 K T r sigma) * Real.sqrt T

/-- Embedding of `bsm_call_value(S0, K, T, r, sigma)`.  The guards mirror the
points at which the Python code raises: `log(S0 / K)` raises when the ratio is
non-positive (or `K = 0`, a `ZeroDivisionError`, covered because `S0 / 0 = 0`
in Lean), `sqrt(T)` raises when `T < 0`, and the division by
`sigma * sqrt(T)` raises when that product is zero. -/
def bsm_call_value (S0 K T r sigma : ℝ) : Option ℝ :=
  if S0 / K ≤ 0 then none
  else if T < 0 then none
  else if sigma * Real.sqrt T = 0 then none
  else some (bsm_call_price S0 K T r sigma)

/-- Embedding of `bsm_vega(S0, K, T, r, sigma)`.  Note: the code uses
`stats.norm.cdf(d1, 0.0, 1.0)`, the cumulative distribution function, in the
product `S0 * stats.norm.cdf(d1, 0.0, 1.0) * sqrt(T)`. -/
def bsm_vega (S0 K T r sigma : ℝ) : Option ℝ :=
  if S0 / K ≤ 0 then none
  else if T < 0 then none
  else if sigma * Real.sqrt T = 0 then none
  else some (bsm_vega_val S0 K T r sigma)

/-- The Vega formula as the specification states it:
`Vega = S0 * phi(d1) * sqrt(T)` with `phi` the standard normal density.
Kept separate from `bsm_vega` so the two can be compared. -/
def vega_spec (S0 K T r sigma : ℝ) : ℝ :=
  S0 * normPdf (d1f S0 K T r sigma) * Real.sqrt T

/-- One iteration of the `for` loop in `bsm_call_imp_vol`:
`sigma_est -= (bsm_call_value(...) - C0) / bsm_vega(...)` with exception
propagation from the two calls and from the float division. -/
def newton_step (S0 K T r C0 s : ℝ) : Option ℝ :=
  (bsm_call_value S0 K T r s).bind fun v =>
    (bsm_vega S0 K T r s).bind fun vg =>
      if vg = 0 then none else some (s - (v - C0) / vg)

/-- Embedding of `bsm_call_imp_vol(S0, K, T, r, C0, sigma_est, it)`: the
`for i in range(it)` loop updating `sigma_est`, with exceptions propagating. -/
def bsm_call_imp_vol (S0 K T r C0 : ℝ) : ℝ → ℕ → Option ℝ
  | s, 0 => some s
  | s, n + 1 => (newton_step S0 K T r C0 s).bind fun s2 =>
      bsm_call_imp_vol S0 K T r C0 s2 n

/-- The total-function form of one Newton-Raphson update, the value computed
by `newton_step` whenever no exception occurs. -/
def newton_update (S0 K T r C0 : ℝ) (s : ℝ) : ℝ :=
  s - (bsm_call_price S0 K T r s - C0) / bsm_vega_val S0 K T r s

end

section NormalFacts

open MeasureTheory ProbabilityTheory

lemma normPdf_def (x : ℝ) :
    normPdf x = (Real.sqrt (2 * Real.pi))⁻¹ * Real.exp (-(x ^ 2) / 2) := by
  rw [normPdf, gaussianPDFReal]
  norm_num

lemma normPdf_pos (x : ℝ) : 0 < normPdf x :=
  gaussianPDFReal_pos 0 1 x one_ne_zero

lemma normPdf_integrable : MeasureTheory.Integrable normPdf :=
  integrable_gaussianPDFReal 0 1

lemma normPdf_shift_integrable (a : ℝ) :
    MeasureTheory.Integrable fun t => normPdf (t + a) := by
  refine (integrable_gaussianPDFReal (0 - a) 1).congr ?_
  filter_upwards with t
  rw [normPdf, gaussianPDFReal_add]

/-- Translation: integrating the shifted density over `Iic c` computes the
cumulative distribution function at `c + a`. -/
lemma setIntegral_normPdf_shift (c a : ℝ) :
    ∫ t in Set.Iic c, normPdf (t + a) = normCdf (c + a) := by
  rw [normCdf, ← MeasureTheory.integral_indicator measurableSet_Iic,
    ← MeasureTheory.integral_indicator measurableSet_Iic]
  have key : ∀ t : ℝ, (Set.Iic c).indicator (fun u => normPdf (u + a)) t
      = (Set.Iic (c + a)).indicator normPdf (t + a) := by
    intro t
    simp only [Set.indicator_apply, Set.mem_Iic]
    by_cases h : t ≤ c
    · rw [if_pos h, if_pos (by linarith)]
    · rw [if_neg h, if_neg (fun hc => h (by linarith))]
  calc ∫ t, (Set.Iic c).indicator (fun u => normPdf (u + a)) t
      = ∫ t, (Set.Iic (c + a)).indicator normPdf (t + a) := by simp only [key]
    _ = ∫ t, (Set.Iic (c + a)).indicator normPdf t :=
        MeasureTheory.integral_add_right_eq_self _ a

lemma normCdf_pos (x : ℝ) : 0 < normCdf x := by
  rw [normCdf, MeasureTheory.setIntegral_pos_iff_support_of_nonneg_ae
    (Filter.Eventually.of_forall fun t => (normPdf_pos t).le)
    normPdf_integrable.integrableOn]
  have hsupp : Function.support normPdf = Set.univ :=
    Set.eq_univ_of_forall fun t => (normPdf_pos t).ne'
  rw [hsupp, Set.univ_inter, Real.volume_Iic]
  exact ENNReal.zero_lt_top

lemma normCdf_split :
    normCdf 1 = normCdf 0 + ∫ t in Set.Ioc (0 : ℝ) 1, normPdf t := by
  rw [normCdf, normCdf,
    ← MeasureTheory.setIntegral_union (Set.Iic_disjoint_Ioc le_rfl) measurableSet_Ioc
      normPdf_integrable.integrableOn normPdf_integrable.integrableOn,
    Set.Iic_union_Ioc_eq_Iic zero_le_one]

lemma normPdf_one_lt_normCdf_one : normPdf 1 < normCdf 1 := by
  have hbound : normPdf 1 ≤ ∫ t in Set.Ioc (0 : ℝ) 1, normPdf t := by
    have hconst : ∫ _ in Set.Ioc (0 : ℝ) 1, normPdf 1 = normPdf 1 := by
      rw [MeasureTheory.setIntegral_const, Real.volume_Ioc]
      norm_num
    rw [← hconst]
    refine MeasureTheory.setIntegral_mono_on
      (MeasureTheory.integrableOn_const.mpr ?_)
      normPdf_integrable.integrableOn measurableSet_Ioc ?_
    · right
      rw [Real.volume_Ioc]
      norm_num
    · intro t ht
      rw [normPdf_def, normPdf_def]
      have h2 : Real.exp (-(1 ^ 2) / 2) ≤ Real.exp (-(t ^ 2) / 2) := by
        apply Real.exp_le_exp.mpr
        nlinarith [ht.1.le, ht.2]
      have hc : (0 : ℝ) < (Real.sqrt (2 * Real.pi))⁻¹ := by
        rw [inv_pos]
        exact Real.sqrt_pos.mpr (by positivity)
      exact mul_le_mul_of_nonneg_left h2 hc.le
  calc normPdf 1 ≤ ∫ t in Set.Ioc (0 : ℝ) 1, normPdf t := hbound
    _ < normCdf 0 + ∫ t in Set.Ioc (0 : ℝ) 1, normPdf t := by
        linarith [normCdf_pos 0]
    _ = normCdf 1 := normCdf_split.symm

end NormalFacts

section PricerLemmas

/-- Algebraic core shared by several results below: the difference between the
two quantities computed by `bsm_call_value` is `sigma * sqrt T`. -/
lemma d1f_sub_d2f (S0 K T r sigma : ℝ) (hT : 0 < T) (hs : sigma ≠ 0) :
    d1f S0 K T r sigma - d2f S0 K T r sigma = sigma * Real.sqrt T := by
  rw [d1f, d2f]
  set u := Real.sqrt T with hu
  have hsT : u ≠ 0 := ne_of_gt (Real.sqrt_pos.mpr hT)
  have hsq : u * u = T := Real.mul_self_sqrt hT.le
  rw [← hsq]
  field_simp
  ring

/-- The exponent identity behind the Black-Scholes formula: with
`a = sigma * sqrt T`, one has `d2 * a + a ^ 2 / 2 = log (S0 / K) + r * T`. -/
lemma d2f_mul_add_sq (S0 K T r sigma : ℝ) (hT : 0 < T) (hs : sigma ≠ 0) :
    d2f S0 K T r sigma * (sigma * Real.sqrt T) + (sigma * Real.sqrt T) ^ 2 / 2
      = Real.log (S0 / K) + r * T := by
  rw [d2f]
  set u := Real.sqrt T with hu
  have hsT : u ≠ 0 := ne_of_gt (Real.sqrt_pos.mpr hT)
  have hsq : u * u = T := Real.mul_self_sqrt hT.le
  rw [← hsq]
  field_simp
  ring

end PricerLemmas

/-- C6: for S0 > 0, K > 0, T > 0, sigma > 0, the direct formula for d2 used by
`bsm_call_value` agrees with the specification's derived form d1 - sigma * sqrt(T). -/
theorem d2f_eq_d1f_sub (S0 K T r sigma : ℝ) (hS : 0 < S0) (hK : 0 < K)
    (hT : 0 < T) (hs : 0 < sigma) :
    d2f S0 K T r sigma = d1f S0 K T r sigma - sigma * Real.sqrt T := by
  have h := d1f_sub_d2f S0 K T r sigma hT hs.ne'
  linarith

/-- Witness for `d2f_eq_d1f_sub` at S0 = 1, K = 1, T = 1, r = 0, sigma = 1. -/
theorem d2f_eq_d1f_sub_witness :
    d2f 1 1 1 0 1 = d1f 1 1 1 0 1 - 1 * Real.sqrt 1 :=
  d2f_eq_d1f_sub 1 1 1 0 1 (by norm_num) (by norm_num) (by norm_num) (by norm_num)

section Nonnegativity

open MeasureTheory

/-- Pointwise comparison of the two integrands of the Black-Scholes formula on
the half line below `d2`. -/
lemma bsm_pointwise_le (S0 K T r sigma : ℝ) (hS : 0 < S0) (hK : 0 < K)
    (hT : 0 < T) (hs : 0 < sigma) :
    ∀ u ∈ Set.Iic (d2f S0 K T r sigma),
      K * Real.exp (-r * T) * normPdf u
        ≤ S0 * normPdf (u + sigma * Real.sqrt T) := by
  intro u hu
  set a := sigma * Real.sqrt T with ha_def
  have ha : 0 < a := mul_pos hs (Real.sqrt_pos.mpr hT)
  have hid := d2f_mul_add_sq S0 K T r sigma hT hs.ne'
  rw [← ha_def] at hid
  have hlog : Real.log (S0 / K) = Real.log S0 - Real.log K :=
    Real.log_div hS.ne' hK.ne'
  rw [normPdf_def, normPdf_def]
  have hc : (0 : ℝ) ≤ (Real.sqrt (2 * Real.pi))⁻¹ := by positivity
  have lhs_eq : K * Real.exp (-r * T)
        * ((Real.sqrt (2 * Real.pi))⁻¹ * Real.exp (-(u ^ 2) / 2))
      = (Real.sqrt (2 * Real.pi))⁻¹
        * Real.exp (Real.log K + -r * T + -(u ^ 2) / 2) := by
    rw [Real.exp_add, Real.exp_add, Real.exp_log hK]
    ring
  have rhs_eq : S0 * ((Real.sqrt (2 * Real.pi))⁻¹ * Real.exp (-((u + a) ^ 2) / 2))
      = (Real.sqrt (2 * Real.pi))⁻¹
        * Real.exp (Real.log S0 + -((u + a) ^ 2) / 2) := by
    rw [Real.exp_add, Real.exp_log hS]
    ring
  rw [lhs_eq, rhs_eq]
  refine mul_le_mul_of_nonneg_left (Real.exp_le_exp.mpr ?_) hc
  have hmul : u * a ≤ d2f S0 K T r sigma * a :=
    mul_le_mul_of_nonneg_right (Set.mem_Iic.mp hu) ha.le
  nlinarith [hmul, hid, hlog]

/-- The Black-Scholes value is non-negative on the pricer's domain. -/
lemma bsm_call_price_nonneg (S0 K T r sigma : ℝ) (hS : 0 < S0) (hK : 0 < K)
    (hT : 0 < T) (hs : 0 < sigma) :
    0 ≤ bsm_call_price S0 K T r sigma := by
  set a := sigma * Real.sqrt T with ha_def
  set d2 := d2f S0 K T r sigma with hd2_def
  have hd1 : d1f S0 K T r sigma = d2 + a := by
    have := d1f_sub_d2f S0 K T r sigma hT hs.ne'
    linarith
  rw [bsm_call_price, hd1, sub_nonneg]
  calc K * Real.exp (-r * T) * normCdf d2
      = ∫ u in Set.Iic d2, K * Real.exp (-r * T) * normPdf u := by
        rw [normCdf, MeasureTheory.integral_mul_left]
    _ ≤ ∫ u in Set.Iic d2, S0 * normPdf (u + a) :=
        setIntegral_mono_on
          ((normPdf_integrable.const_mul _).integrableOn)
          (((normPdf_shift_integrable a).const_mul _).integrableOn)
          measurableSet_Iic (bsm_pointwise_le S0 K T r sigma hS hK hT hs)
    _ = S0 * ∫ u in Set.Iic d2, normPdf (u + a) := by
        rw [MeasureTheory.integral_mul_left]
    _ = S0 * normCdf (d2 + a) := by rw [setIntegral_normPdf_shift]

end Nonnegativity

/-- C7: for S0 > 0, K > 0, T > 0, sigma > 0, whenever the pricer returns a
value, that value `S0 * N(d1) - K * exp(-r * T) * N(d2)` is non-negative. -/
theorem bsm_call_value_nonneg (S0 K T r sigma v : ℝ) (hS : 0 < S0) (hK : 0 < K)
    (hT : 0 < T) (hs : 0 < sigma)
    (hv : bsm_call_value S0 K T r sigma = some v) : 0 ≤ v := by
  rw [bsm_call_value, if_neg (not_le.mpr (div_pos hS hK)),
    if_neg (not_lt.mpr hT.le),
    if_neg (mul_ne_zero hs.ne' (ne_of_gt (Real.sqrt_pos.mpr hT)))] at hv
  cases hv
  exact bsm_call_price_nonneg S0 K T r sigma hS hK hT hs

/-- Witness for `bsm_call_value_nonneg` at S0 = 1, K = 1, T = 1, r = 0,
sigma = 1. -/
theorem bsm_call_value_nonneg_witness : 0 ≤ bsm_call_price 1 1 1 0 1 :=
  bsm_call_value_nonneg 1 1 1 0 1 (bsm_call_price 1 1 1 0 1)
    (by norm_num) (by norm_num) (by norm_num) (by norm_num)
    (by rw [bsm_call_value, if_neg (by norm_num), if_neg (by norm_num),
          if_neg (by rw [Real.sqrt_one]; norm_num)])

lemma d1f_concrete : d1f 1 1 1 0 2 = 1 := by
  rw [d1f]
  norm_num [Real.log_one, Real.sqrt_one]

/-- C1: `bsm_vega` does not compute `S0 * phi(d1) * sqrt(T)` with `phi` the
standard normal density: at S0 = 1, K = 1, T = 1, r = 0, sigma = 2 (where
d1 = 1) the code returns the cumulative distribution value `N(1)`, which is
strictly greater than the density value `phi(1)` the specification (and the
function's own docstring, the sigma-derivative of the price) prescribes. -/
theorem bsm_vega_ne_spec :
    bsm_vega 1 1 1 0 2 = some (normCdf 1)
      ∧ vega_spec 1 1 1 0 2 = normPdf 1
      ∧ normPdf 1 < normCdf 1 := by
  refine ⟨?_, ?_, normPdf_one_lt_normCdf_one⟩
  · rw [bsm_vega, if_neg (by norm_num), if_neg (by norm_num),
      if_neg (by rw [Real.sqrt_one]; norm_num), bsm_vega_val, d1f_concrete,
      Real.sqrt_one]
    norm_num
  · rw [vega_spec, d1f_concrete, Real.sqrt_one]
    norm_num

section SolverLemmas

lemma bsm_vega_val_pos (S0 K T r sigma : ℝ) (hS : 0 < S0) (hT : 0 < T) :
    0 < bsm_vega_val S0 K T r sigma := by
  rw [bsm_vega_val]
  exact mul_pos (mul_pos hS (normCdf_pos _)) (Real.sqrt_pos.mpr hT)

lemma bsm_call_value_eq_some (S0 K T r sigma : ℝ) (hS : 0 < S0) (hK : 0 < K)
    (hT : 0 < T) (hs : sigma ≠ 0) :
    bsm_call_value S0 K T r sigma = some (bsm_call_price S0 K T r sigma) := by
  rw [bsm_call_value, if_neg (not_le.mpr (div_pos hS hK)),
    if_neg (not_lt.mpr hT.le),
    if_neg (mul_ne_zero hs (ne_of_gt (Real.sqrt_pos.mpr hT)))]

lemma bsm_vega_eq_some (S0 K T r sigma : ℝ) (hS : 0 < S0) (hK : 0 < K)
    (hT : 0 < T) (hs : sigma ≠ 0) :
    bsm_vega S0 K T r sigma = some (bsm_vega_val S0 K T r sigma) := by
  rw [bsm_vega, if_neg (not_le.mpr (div_pos hS hK)),
    if_neg (not_lt.mpr hT.le),
    if_neg (mul_ne_zero hs (ne_of_gt (Real.sqrt_pos.mpr hT)))]

lemma newton_step_eq (S0 K T r C0 s : ℝ) (hS : 0 < S0) (hK : 0 < K)
    (hT : 0 < T) (hs : s ≠ 0) :
    newton_step S0 K T r C0 s = some (newton_update S0 K T r C0 s) := by
  rw [newton_step, bsm_call_value_eq_some S0 K T r s hS hK hT hs,
    bsm_vega_eq_some S0 K T r s hS hK hT hs]
  show (if bsm_vega_val S0 K T r s = 0 then none
    else some (s - (bsm_call_price S0 K T r s - C0) / bsm_vega_val S0 K T r s))
      = some (newton_update S0 K T r C0 s)
  rw [if_neg (ne_of_gt (bsm_vega_val_pos S0 K T r s hS hT)), newton_update]

end SolverLemmas

/-- C3: for every parameter set with S0 > 0, K > 0, T > 0 and every iteration
count N such that no intermediate estimate is exactly zero, the solver runs
exactly N Newton-Raphson updates `sigma := sigma - (price - C0) / vega`, with
no early exit and no residual check, and returns the N-th iterate. -/
theorem bsm_call_imp_vol_iterates (S0 K T r C0 s : ℝ) (N : ℕ) (hS : 0 < S0)
    (hK : 0 < K) (hT : 0 < T)
    (hnz : ∀ i < N, (newton_update S0 K T r C0)^[i] s ≠ 0) :
    bsm_call_imp_vol S0 K T r C0 s N
      = some ((newton_update S0 K T r C0)^[N] s) := by
  induction N generalizing s with
  | zero => rfl
  | succ n ih =>
      have hs0 : s ≠ 0 := by simpa using hnz 0 (Nat.succ_pos n)
      rw [bsm_call_imp_vol, newton_step_eq S0 K T r C0 s hS hK hT hs0]
      show bsm_call_imp_vol S0 K T r C0 (newton_update S0 K T r C0 s) n
        = some ((newton_update S0 K T r C0)^[n + 1] s)
      rw [ih (newton_update S0 K T r C0 s) ?_, Function.iterate_succ_apply]
      intro i hi
      have h := hnz (i + 1) (Nat.succ_lt_succ hi)
      rwa [Function.iterate_succ_apply] at h

/-- Witness for `bsm_call_imp_vol_iterates`: one iteration from sigma = 1 at
S0 = 1, K = 1, T = 1, r = 0, C0 = 0. -/
theorem bsm_call_imp_vol_iterates_witness :
    bsm_call_imp_vol 1 1 1 0 0 1 1 = some ((newton_update 1 1 1 0 0)^[1] 1) :=
  bsm_call_imp_vol_iterates 1 1 1 0 0 1 1 (by norm_num) (by norm_num)
    (by norm_num) (by
      intro i hi
      interval_cases i
      simp)

/-- C9: if the supplied market price C0 is exactly the pricer's value at the
initial guess, every Newton update subtracts `0 / vega` and the solver
returns the initial guess unchanged, for every iteration count. -/
theorem bsm_call_imp_vol_fixed_point (S0 K T r s C0 : ℝ) (it : ℕ)
    (hS : 0 < S0) (hK : 0 < K) (hT : 0 < T) (hs : 0 < s)
    (hC : bsm_call_value S0 K T r s = some C0) :
    bsm_call_imp_vol S0 K T r C0 s it = some s := by
  have hv : bsm_call_price S0 K T r s = C0 := by
    rw [bsm_call_value_eq_some S0 K T r s hS hK hT hs.ne'] at hC
    exact Option.some.inj hC
  induction it with
  | zero => rfl
  | succ n ih =>
      rw [bsm_call_imp_vol, newton_step_eq S0 K T r C0 s hS hK hT hs.ne']
      have hupd : newton_update S0 K T r C0 s = s := by
        rw [newton_update, hv, sub_self, zero_div, sub_zero]
      show bsm_call_imp_vol S0 K T r C0 (newton_update S0 K T r C0 s) n = some s
      rw [hupd, ih]

/-- Witness for `bsm_call_imp_vol_fixed_point`: at S0 = 1, K = 1, T = 1,
r = 0, sigma_est = 1 and the exact model price, one iteration returns the
guess unchanged. -/
theorem bsm_call_imp_vol_fixed_point_witness :
    bsm_call_imp_vol 1 1 1 0 (bsm_call_price 1 1 1 0 1) 1 1 = some 1 :=
  bsm_call_imp_vol_fixed_point 1 1 1 0 1 (bsm_call_price 1 1 1 0 1) 1
    (by norm_num) (by norm_num) (by norm_num) (by norm_num)
    (bsm_call_value_eq_some 1 1 1 0 1 (by norm_num) (by norm_num)
      (by norm_num) (by norm_num))

/-- C5 counterexample: a non-positive initial guess does not make the solver
fail before iterating.  With sigma_est = -1 the solver returns -1 when the
iteration count is 0, and even performs a full Newton iteration without any
error when the iteration count is 1. -/
theorem bsm_call_imp_vol_no_domain_check :
    bsm_call_imp_vol 1 1 1 0 0 (-1) 0 = some (-1)
      ∧ (bsm_call_imp_vol 1 1 1 0 0 (-1) 1).isSome = true := by
  refine ⟨rfl, ?_⟩
  rw [bsm_call_imp_vol, newton_step_eq 1 1 1 0 0 (-1) (by norm_num)
    (by norm_num) (by norm_num) (by norm_num)]
  rfl

/-- C5 amended: the solver performs no domain check on the initial guess:
with a non-positive sigma_est and iteration count 0 it simply returns
sigma_est, with no error raised before the Newton loop. -/
theorem bsm_call_imp_vol_zero_iters (S0 K T r C0 sigma_est : ℝ)
    (h : sigma_est ≤ 0) :
    bsm_call_imp_vol S0 K T r C0 sigma_est 0 = some sigma_est := rfl

/-- Witness for `bsm_call_imp_vol_zero_iters` at sigma_est = -1. -/
theorem bsm_call_imp_vol_zero_iters_witness :
    bsm_call_imp_vol 1 1 1 0 0 (-1) 0 = some (-1) :=
  bsm_call_imp_vol_zero_iters 1 1 1 0 0 (-1) (by norm_num)

/-- C4 counterexample: for sigma = -1 (and T = 1 > 0) the pricer raises no
error and returns an ordinary value, although sigma ≤ 0. -/
theorem bsm_call_value_neg_sigma_returns :
    ((-1 : ℝ) ≤ 0) ∧ (bsm_call_value 1 1 1 0 (-1)).isSome = true := by
  refine ⟨by norm_num, ?_⟩
  rw [bsm_call_value_eq_some 1 1 1 0 (-1) (by norm_num) (by norm_num)
    (by norm_num) (by norm_num)]
  rfl

/-- C4 amended: for S0 > 0 and K > 0 the pricer fails exactly when T ≤ 0 or
sigma = 0; a negative sigma with positive T slips through the division and
produces an ordinary value. -/
theorem bsm_call_value_none_iff (S0 K T r sigma : ℝ) (hS : 0 < S0)
    (hK : 0 < K) :
    bsm_call_value S0 K T r sigma = none ↔ T ≤ 0 ∨ sigma = 0 := by
  rw [bsm_call_value, if_neg (not_le.mpr (div_pos hS hK))]
  rcases lt_trichotomy T 0 with hT | rfl | hT
  · rw [if_pos hT]
    simp [hT.le]
  · rw [if_neg (lt_irrefl (0 : ℝ)), Real.sqrt_zero, mul_zero, if_pos rfl]
    simp
  · rw [if_neg (not_lt.mpr hT.le)]
    by_cases hsig : sigma = 0
    · rw [hsig, zero_mul, if_pos rfl]
      simp
    · rw [if_neg (mul_ne_zero hsig (ne_of_gt (Real.sqrt_pos.mpr hT)))]
      simp [hsig, not_le.mpr hT]

/-- Witness for `bsm_call_value_none_iff` at S0 = 1, K = 1, T = -1. -/
theorem bsm_call_value_none_iff_witness :
    bsm_call_value 1 1 (-1) 0 1 = none ↔ ((-1 : ℝ) ≤ 0 ∨ (1 : ℝ) = 0) :=
  bsm_call_value_none_iff 1 1 (-1) 0 1 (by norm_num) (by norm_num)

noncomputable section MonteCarlo

/-- One Euler step of `mcs_pure_python.py` and `mcs_vector_numpy.py`:
`St = S_prev * exp((r - 0.5 * sigma ** 2) * dt + sigma * sqrt(dt) * z)`. -/
def euler_step (r sigma dt s z : ℝ) : ℝ :=
  s * Real.exp ((r - 0.5 * sigma ^ 2) * dt + sigma * Real.sqrt dt * z)

/-- The inner `for t in range(M + 1)` loop of `mcs_pure_python.py`: starting
from the initial level, append one Euler step per normal draw.  The list of
draws stands for the `gauss(0.0, 1.0)` calls, in order. -/
def sim_path (r sigma dt : ℝ) : ℝ → List ℝ → List ℝ
  | s, [] => [s]
  | s, z :: zs => s :: sim_path r sigma dt (euler_step r sigma dt s z) zs

/-- Embedding of `mcs_pure_python.py` as a function of its parameters, with
the normal draws (one list of M draws per path) passed in explicitly:
`C0 = exp(-r * T) * sum([max(path[-1] - K, 0) for path in S]) / I`. -/
def mcs_pure_python (S0 K T r sigma : ℝ) (M I : ℕ)
    (zss : List (List ℝ)) : ℝ :=
  Real.exp (-r * T)
    * ((zss.map fun zs =>
        max ((sim_path r sigma (T / M) S0 zs).getLastD 0 - K) 0).sum) / I

/-- The array `S` of `mcs_vector_numpy.py`: `S[0] = S0` and row `t` is row
`t - 1` times the exponential factor built from row `t` of the draws
(`z t i` is the draw for time step `t` and path `i`). -/
def mcs_vector_S (S0 r sigma dt : ℝ) (z : ℕ → ℕ → ℝ) : ℕ → ℕ → ℝ
  | 0, _ => S0
  | t + 1, i => mcs_vector_S S0 r sigma dt z t i
      * Real.exp ((r - 0.5 * sigma ^ 2) * dt + sigma * Real.sqrt dt * z (t + 1) i)

/-- Embedding of `mcs_vector_numpy.py`:
`C0 = math.exp(-r * T) * np.sum(np.maximum(S[-1] - K, 0)) / I`. -/
def mcs_vector_numpy (S0 K T r sigma : ℝ) (M I : ℕ) (z : ℕ → ℕ → ℝ) : ℝ :=
  Real.exp (-r * T)
    * (∑ i ∈ Finset.range I,
        max (mcs_vector_S S0 r sigma (T / M) z M i - K) 0) / I

/-- The array `S` of `mcs_full_vector_numpy.py`:
`S = S0 * exp(cumsum((r - 0.5 * sigma ** 2) * dt + sigma * sqrt(dt) *
standard_normal((M + 1, I)), axis=0))` followed by `S[0] = S0`.  The draw
matrix has rows `0 .. M`, and the cumulative sum over rows `0 .. t` feeds
row `t`, so row 0's increment enters every later row; the subsequent
assignment only resets row 0 itself. -/
def mcs_full_S (S0 r sigma dt : ℝ) (z : ℕ → ℕ → ℝ) (t i : ℕ) : ℝ :=
  if t = 0 then S0
  else S0 * Real.exp (∑ s ∈ Finset.range (t + 1),
    ((r - 0.5 * sigma ^ 2) * dt + sigma * Real.sqrt dt * z s i))

/-- Embedding of `mcs_full_vector_numpy.py`:
`C0 = math.exp(-r * T) * sum(maximum(S[-1] - K, 0)) / I`. -/
def mcs_full_vector_numpy (S0 K T r sigma : ℝ) (M I : ℕ)
    (z : ℕ → ℕ → ℝ) : ℝ :=
  Real.exp (-r * T)
    * (∑ i ∈ Finset.range I,
        max (mcs_full_S S0 r sigma (T / M) z M i - K) 0) / I

end MonteCarlo

section PathLemmas

lemma sim_path_length (r sigma dt : ℝ) (zs : List ℝ) :
    ∀ s, (sim_path r sigma dt s zs).length = zs.length + 1 := by
  induction zs with
  | nil => intro s; rfl
  | cons z zs ih =>
      intro s
      rw [sim_path, List.length_cons, ih, List.length_cons]

lemma sim_path_headI (r sigma dt s : ℝ) (zs : List ℝ) :
    (sim_path r sigma dt s zs).headI = s := by
  cases zs <;> rfl

lemma sim_path_getD_zero (r sigma dt s : ℝ) (zs : List ℝ) :
    (sim_path r sigma dt s zs).getD 0 0 = s := by
  cases zs <;> rfl

lemma sim_path_getD_step (r sigma dt : ℝ) (zs : List ℝ) :
    ∀ (s : ℝ) (i : ℕ), i < zs.length →
      (sim_path r sigma dt s zs).getD (i + 1) 0
        = euler_step r sigma dt ((sim_path r sigma dt s zs).getD i 0)
            (zs.getD i 0) := by
  induction zs with
  | nil => intro s i hi; exact absurd hi (Nat.not_lt_zero i)
  | cons z zs ih =>
      intro s i hi
      match i with
      | 0 =>
          rw [sim_path]
          show (sim_path r sigma dt (euler_step r sigma dt s z) zs).getD 0 0
            = euler_step r sigma dt s z
          rw [sim_path_getD_zero]
      | i + 1 =>
          rw [sim_path]
          show (sim_path r sigma dt (euler_step r sigma dt s z) zs).getD (i + 1) 0
            = euler_step r sigma dt
                ((sim_path r sigma dt (euler_step r sigma dt s z) zs).getD i 0)
                (zs.getD i 0)
          exact ih (euler_step r sigma dt s z) i (Nat.lt_of_succ_lt_succ hi)

lemma sim_path_all_pos (r sigma dt : ℝ) (zs : List ℝ) :
    ∀ s, 0 < s → ∀ x ∈ sim_path r sigma dt s zs, 0 < x := by
  induction zs with
  | nil =>
      intro s hs x hx
      rw [sim_path, List.mem_singleton] at hx
      exact hx ▸ hs
  | cons z zs ih =>
      intro s hs x hx
      rw [sim_path, List.mem_cons] at hx
      rcases hx with rfl | hx
      · exact hs
      · exact ih (euler_step r sigma dt s z)
          (mul_pos hs (Real.exp_pos _)) x hx

end PathLemmas

/-- C10: every path generated by the pure-Python simulator from S0 > 0 and a
list of M normal draws has exactly M + 1 levels, starts at S0, and all its
levels are strictly positive. -/
theorem sim_path_invariant (S0 r sigma dt : ℝ) (M : ℕ) (zs : List ℝ)
    (hS : 0 < S0) (hlen : zs.length = M) :
    (sim_path r sigma dt S0 zs).length = M + 1
      ∧ (sim_path r sigma dt S0 zs).headI = S0
      ∧ ∀ x ∈ sim_path r sigma dt S0 zs, 0 < x :=
  ⟨by rw [sim_path_length, hlen], sim_path_headI r sigma dt S0 zs,
    sim_path_all_pos r sigma dt zs S0 hS⟩

/-- Witness for `sim_path_invariant`: S0 = 1, one zero draw. -/
theorem sim_path_invariant_witness :
    (sim_path 0 1 1 1 [0]).length = 1 + 1
      ∧ (sim_path 0 1 1 1 [0]).headI = 1
      ∧ ∀ x ∈ sim_path 0 1 1 1 [0], 0 < x :=
  sim_path_invariant 1 0 1 1 1 [0] (by norm_num) rfl

/-- C8: the pure-Python simulator builds every path by the log-space Euler
step `S_t = S_(t-1) * exp((r - sigma^2 / 2) * dt + sigma * sqrt(dt) * z)`
with dt = T / M, and returns exp(-r * T) times the average over the I paths
of the terminal payoff max(S_T - K, 0). -/
theorem mcs_pure_python_euler (S0 K T r sigma : ℝ) (M I : ℕ)
    (zss : List (List ℝ)) (hI : zss.length = I)
    (hM : ∀ zs ∈ zss, zs.length = M) :
    (∀ zs ∈ zss, ∀ i < M,
        (sim_path r sigma (T / M) S0 zs).getD (i + 1) 0
          = (sim_path r sigma (T / M) S0 zs).getD i 0
              * Real.exp ((r - 0.5 * sigma ^ 2) * (T / M)
                  + sigma * Real.sqrt (T / M) * zs.getD i 0))
      ∧ mcs_pure_python S0 K T r sigma M I zss
          = Real.exp (-r * T)
              * ((zss.map fun zs =>
                  max ((sim_path r sigma (T / M) S0 zs).getLastD 0 - K) 0).sum
                / I) := by
  constructor
  · intro zs hzs i hi
    rw [sim_path_getD_step r sigma (T / M) zs S0 i (by rw [hM zs hzs]; exact hi),
      euler_step]
  · rw [mcs_pure_python, mul_div_assoc]

/-- Witness for `mcs_pure_python_euler`: one path, one step, zero draw. -/
theorem mcs_pure_python_euler_witness :
    (∀ zs ∈ [[(0 : ℝ)]], ∀ i < 1,
        (sim_path 0 1 (1 / 1) 1 zs).getD (i + 1) 0
          = (sim_path 0 1 (1 / 1) 1 zs).getD i 0
              * Real.exp ((0 - 0.5 * 1 ^ 2) * (1 / 1)
                  + 1 * Real.sqrt (1 / 1) * zs.getD i 0))
      ∧ mcs_pure_python 1 1 1 0 1 1 1 [[(0 : ℝ)]]
          = Real.exp (-0 * 1)
              * (([[(0 : ℝ)]].map fun zs =>
                  max ((sim_path 0 1 (1 / 1) 1 zs).getLastD 0 - 1) 0).sum
                / 1) := by
  have h := mcs_pure_python_euler 1 1 1 0 1 1 1 [[(0 : ℝ)]] rfl
    (by intro zs hzs; rw [List.mem_singleton] at hzs; rw [hzs]; rfl)
  have hM : ((1 : ℕ) : ℝ) = 1 := Nat.cast_one
  rw [hM] at h
  exact h

section VariantComparison

lemma sim_path_ne_nil (r sigma dt s : ℝ) (zs : List ℝ) :
    sim_path r sigma dt s zs ≠ [] := by
  cases zs <;> simp [sim_path]

lemma sim_path_getLastD_eq_foldl (r sigma dt : ℝ) (zs : List ℝ) :
    ∀ s, (sim_path r sigma dt s zs).getLastD 0
      = zs.foldl (euler_step r sigma dt) s := by
  induction zs with
  | nil => intro s; rfl
  | cons z zs ih =>
      intro s
      rw [sim_path, List.foldl_cons, ← ih (euler_step r sigma dt s z)]
      cases h : sim_path r sigma dt (euler_step r sigma dt s z) zs with
      | nil => exact absurd h (sim_path_ne_nil r sigma dt _ zs)
      | cons b l => rfl

lemma mcs_vector_S_eq_foldl (S0 r sigma dt : ℝ) (z : ℕ → ℕ → ℝ) (i : ℕ) :
    ∀ M, mcs_vector_S S0 r sigma dt z M i
      = ((List.range M).map fun t => z (t + 1) i).foldl
          (euler_step r sigma dt) S0 := by
  intro M
  induction M with
  | zero => rfl
  | succ n ih =>
      rw [mcs_vector_S, ih, List.range_succ, List.map_append,
        List.foldl_append]
      rfl

lemma list_map_range_sum (f : ℕ → ℝ) :
    ∀ n, ((List.range n).map f).sum = ∑ i ∈ Finset.range n, f i := by
  intro n
  induction n with
  | zero => rfl
  | succ n ih =>
      rw [List.range_succ, List.map_append, List.sum_append,
        Finset.sum_range_succ, ih]
      simp

/-- Supporting fact for the comparison of the Monte Carlo variants: on any
draw matrix, the pure-Python double loop and the NumPy loop over time steps
compute exactly the same value (path `i` of the former reading the draws
`z 1 i, ..., z M i` of the latter). -/
theorem mcs_pure_eq_vector (S0 K T r sigma : ℝ) (M I : ℕ)
    (z : ℕ → ℕ → ℝ) :
    mcs_pure_python S0 K T r sigma M I
        ((List.range I).map fun i => (List.range M).map fun t => z (t + 1) i)
      = mcs_vector_numpy S0 K T r sigma M I z := by
  rw [mcs_pure_python, mcs_vector_numpy, List.map_map]
  congr 1
  congr 1
  rw [list_map_range_sum]
  refine Finset.sum_congr rfl fun i _ => ?_
  show max ((sim_path r sigma (T / M) S0
      ((List.range M).map fun t => z (t + 1) i)).getLastD 0 - K) 0 = _
  rw [sim_path_getLastD_eq_foldl, mcs_vector_S_eq_foldl]

lemma getLastD_pair (a b d : ℝ) : List.getLastD [a, b] d = b := rfl

lemma mcs_pure_concrete :
    mcs_pure_python 1 0 1 0 2 1 1 [[0]] = Real.exp (-2) := by
  rw [mcs_pure_python, Nat.cast_one, List.map_singleton, List.sum_singleton,
    sim_path, sim_path, euler_step, getLastD_pair]
  norm_num [Real.sqrt_one]
  exact (Real.exp_pos _).le

lemma mcs_vector_concrete :
    mcs_vector_numpy 1 0 1 0 2 1 1 (fun _ _ => 0) = Real.exp (-2) := by
  rw [mcs_vector_numpy, Nat.cast_one, Finset.sum_range_one,
    mcs_vector_S, mcs_vector_S]
  norm_num [Real.sqrt_one]
  exact (Real.exp_pos _).le

lemma mcs_full_concrete :
    mcs_full_vector_numpy 1 0 1 0 2 1 1 (fun _ _ => 0) = Real.exp (-4) := by
  rw [mcs_full_vector_numpy, Nat.cast_one, Finset.sum_range_one, mcs_full_S]
  rw [if_neg one_ne_zero]
  have hsum : ∑ s ∈ Finset.range 2,
      ((0 - 0.5 * 2 ^ 2) * ((1 : ℝ) / 1) + 2 * Real.sqrt (1 / 1) * 0)
        = (-4 : ℝ) := by
    rw [Finset.sum_const, Finset.card_range]
    norm_num
  rw [hsum]
  norm_num
  exact (Real.exp_pos _).le

end VariantComparison

/-- C2: the three Monte Carlo scripts do not compute the same function.  At
S0 = 1, K = 0, T = 1, r = 0, sigma = 2, M = 1, I = 1 with every normal draw
equal to 0 (the same assignment at every path/step position), the pure-Python
and the step-vectorized variants both return exp(-2), but the fully
vectorized variant returns exp(-4): its cumulative sum also compounds row 0
of its (M + 1) x I draw matrix, so each terminal level carries one extra
drift-and-diffusion increment. -/
theorem mcs_variants_disagree :
    mcs_pure_python 1 0 1 0 2 1 1 [[0]]
        = mcs_vector_numpy 1 0 1 0 2 1 1 (fun _ _ => 0)
      ∧ mcs_full_vector_numpy 1 0 1 0 2 1 1 (fun _ _ => 0)
        ≠ mcs_vector_numpy 1 0 1 0 2 1 1 (fun _ _ => 0) := by
  rw [mcs_pure_concrete, mcs_vector_concrete, mcs_full_concrete]
  exact ⟨rfl, (Real.exp_lt_exp.mpr (by norm_num)).ne⟩

end Python4Finance
